import Mathlib

/-!
Verification of the bravado swagger mapping engine.

The development embeds `src/bravado/mapping/operation.py` (the `Operation`
class: parameter-set construction, request construction, argument
validation, and response-spec selection) together with the collaborators
that the repository's sources reference but do not ship under `src/`
(`Param`, `marshal_param`, `post_receive`, the marshaller); the latter are
modelled from the specification and marked as such in their doc comments.

Python dicts are embedded as insertion-ordered association lists
(`List (String × α)`) with the update-in-place semantics of dict
assignment, exceptions as `Except` error values, and the transport future
as an explicit value holding the constructed request and the response
callback.
-/

namespace Bravado

/-! ## Ordered dictionaries (Python `dict` embedding) -/

/-- Lookup in an insertion-ordered dictionary (`d[k]` / `d.get(k)`). -/
def dictGet {α : Type} : List (String × α) → String → Option α
  | [], _ => none
  | (k, v) :: rest, key => if k = key then some v else dictGet rest key

/-- Assignment `d[k] = v` with Python dict semantics: an existing key is
updated in place (keeping its position), a new key is appended. -/
def dictSet {α : Type} : List (String × α) → String → α → List (String × α)
  | [], key, value => [(key, value)]
  | (k, v) :: rest, key, value =>
    if k = key then (k, value) :: rest else (k, v) :: dictSet rest key value

/-- Remove the entry for `key`, keeping every other entry in order. -/
def eraseKey {α : Type} : List (String × α) → String → List (String × α)
  | [], _ => []
  | (k, v) :: rest, key =>
    if k = key then rest else (k, v) :: eraseKey rest key

/-- `d.pop(key, None)`: the removed value together with the remaining
dictionary, or `none` when the key is absent. -/
def dictPop {α : Type} (l : List (String × α)) (key : String) :
    Option (α × List (String × α)) :=
  match dictGet l key with
  | some v => some (v, eraseKey l key)
  | none => none

/-- `d.pop(key, dflt)`: like `dictPop` but returning a default value and
the unchanged dictionary when the key is absent. -/
def dictPopD {α : Type} (l : List (String × α)) (key : String) (dflt : α) :
    α × List (String × α) :=
  match dictPop l key with
  | some (v, rest) => (v, rest)
  | none => (dflt, l)

/-- The keys of a dictionary, in order. -/
def dictKeys {α : Type} (l : List (String × α)) : List String :=
  l.map Prod.fst

/-! ## Wire JSON and native values -/

/-- Wire-level JSON: the shape of request/response bodies and of the
values the transport exchanges. -/
inductive Json where
  | jnull : Json
  | jbool (b : Bool) : Json
  | jnum (n : Int) : Json
  | jstr (s : String) : Json
  | jarr (elems : List Json) : Json
  | jobj (fields : List (String × Json)) : Json

/-- Field access `j[k]` on a JSON object; `none` on any other shape. -/
def jsonGet : Json → String → Option Json
  | .jobj fields, key => dictGet fields key
  | _, _ => none

/-- Field assignment on a JSON object; any other shape is left unchanged. -/
def jsonSet : Json → String → Json → Json
  | .jobj fields, key, value => .jobj (dictSet fields key value)
  | j, _, _ => j

/-- Whether a JSON value is an object. -/
def Json.isObj : Json → Bool
  | .jobj _ => true
  | _ => false

/-- Modelled from the spec: native (unmarshalled) values handled by the
marshaller of §4.3, which is not shipped under `src/`.  A `vmodel` is a
Model instance of the Record Type named by its first component: an
ordered bag of named fields.  The modelled primitive subtypes are
`string`, `integer` and `boolean`; the date and floating-point formats
are outside this model. -/
inductive Value where
  | vstr (s : String) : Value
  | vint (n : Int) : Value
  | vbool (b : Bool) : Value
  | varr (elems : List Value) : Value
  | vmodel (name : String) (fields : List (String × Value)) : Value

/-- Modelled from the spec: primitive subtypes of a Definition (§3). -/
inductive PrimType where
  | pstring
  | pinteger
  | pboolean

/-- Modelled from the spec: a node of the Definition graph (§3) — a
primitive, an array with an `items` Definition, a named object with
ordered `properties` and a `required` set, or a `$ref` to a named entry
of the shared definitions table. -/
inductive Definition where
  | prim (t : PrimType) : Definition
  | array (items : Definition) : Definition
  | object (name : String) (props : List (String × Definition))
      (required : List String) : Definition
  | ref (target : String) : Definition

/-- Whether a Definition is a `$ref` node. -/
def Definition.isRef : Definition → Bool
  | .ref _ => true
  | _ => false

/-- Modelled from the spec: reference resolution (§4.1) — a `$ref` is
resolved by a single name lookup into the shared definitions table (never
by copying), every other Definition resolves to itself.  A table entry
that is itself a bare `$ref` does not resolve. -/
def resolveDef (tbl : List (String × Definition)) : Definition → Option Definition
  | .ref target =>
    match dictGet tbl target with
    | some d => if d.isRef then none else some d
    | none => none
  | d => some d

/-! ## The marshaller (§4.3) -/

/-- Modelled from the spec: the fatal errors of the marshaller (§4.3, §7)
— a required property absent from the instance being encoded is a
`SchemaError`, as is an unresolvable `$ref`; a value that does not match
the shape of its Definition cannot be converted. -/
inductive MarshalError where
  | requiredMissing (propName : String) : MarshalError
  | typeMismatch : MarshalError
  | unresolvedRef : MarshalError

theorem dictGet_sizeOf {α : Type} [SizeOf α] (l : List (String × α)) (k : String)
    (v : α) (h : dictGet l k = some v) : sizeOf v < sizeOf l := by
  induction l with
  | nil => simp [dictGet] at h
  | cons hd tl ih =>
    simp only [dictGet] at h
    split at h
    · cases h
      cases hd
      simp
      omega
    · have := ih h
      simp
      omega

mutual

/-- Modelled from the spec: `Encode` of §4.3 (the marshaller is not
shipped under `src/`; its array behaviour matches
`src/tests/mapping/marshal/marshal_array_test.py`).  A primitive is
coerced to its wire shape; an array is encoded element-wise by its
`items` Definition, preserving order; for an object, each declared
property is read off the Model instance and encoded by the property's
sub-Definition — a property absent from the instance is omitted when
optional and is a fatal `SchemaError` when required.  A `$ref` is first
resolved by name lookup. -/
def marshal (tbl : List (String × Definition)) (d : Definition) (v : Value) :
    Except MarshalError Json :=
  match resolveDef tbl d with
  | none => .error .unresolvedRef
  | some d2 =>
    match d2, v with
    | .prim .pstring, .vstr s => .ok (.jstr s)
    | .prim .pinteger, .vint n => .ok (.jnum n)
    | .prim .pboolean, .vbool b => .ok (.jbool b)
    | .array items, .varr elems =>
      match marshalList tbl items elems with
      | .ok js => .ok (.jarr js)
      | .error e => .error e
    | .object _ props required, .vmodel _ fields =>
      match marshalProps tbl props required fields with
      | .ok jfs => .ok (.jobj jfs)
      | .error e => .error e
    | _, _ => .error .typeMismatch
termination_by (sizeOf v, 1)
decreasing_by
  all_goals simp_wf
  all_goals apply Prod.Lex.left
  all_goals simp
  all_goals omega

/-- Element-wise encoding of an array's members (order-preserving). -/
def marshalList (tbl : List (String × Definition)) (d : Definition) :
    List Value → Except MarshalError (List Json)
  | [] => .ok []
  | v :: rest =>
    match marshal tbl d v with
    | .ok j =>
      match marshalList tbl d rest with
      | .ok js => .ok (j :: js)
      | .error e => .error e
    | .error e => .error e
termination_by vs => (sizeOf vs, 0)
decreasing_by
  all_goals simp_wf
  all_goals apply Prod.Lex.left
  all_goals try simp
  all_goals omega

/-- Property-wise encoding of an object: walk the declared properties in
order, reading each off the instance's field bag. -/
def marshalProps (tbl : List (String × Definition))
    (props : List (String × Definition)) (required : List String)
    (fields : List (String × Value)) : Except MarshalError (List (String × Json)) :=
  match props with
  | [] => .ok []
  | (n, d) :: ps =>
    match hv : dictGet fields n with
    | some v =>
      match marshal tbl d v with
      | .ok j =>
        match marshalProps tbl ps required fields with
        | .ok jfs => .ok ((n, j) :: jfs)
        | .error e => .error e
      | .error e => .error e
    | none =>
      if n ∈ required then .error (.requiredMissing n)
      else marshalProps tbl ps required fields
termination_by (sizeOf fields, props.length)
decreasing_by
  all_goals simp_wf
  · apply Prod.Lex.left
    exact dictGet_sizeOf fields _ _ hv
  · apply Prod.Lex.right
    omega
  · apply Prod.Lex.right
    omega

end

mutual

/-- Modelled from the spec: `Decode` of §4.3, the mirror image of
`marshal`.  A primitive is parsed from its wire shape; an array is
decoded element-wise; for an object, each declared property present on
the wire object is decoded by its sub-Definition and absent properties
are left unset on the constructed Model instance.  A `$ref` is first
resolved by name lookup. -/
def unmarshal (tbl : List (String × Definition)) (d : Definition) (j : Json) :
    Except MarshalError Value :=
  match resolveDef tbl d with
  | none => .error .unresolvedRef
  | some d2 =>
    match d2, j with
    | .prim .pstring, .jstr s => .ok (.vstr s)
    | .prim .pinteger, .jnum n => .ok (.vint n)
    | .prim .pboolean, .jbool b => .ok (.vbool b)
    | .array items, .jarr elems =>
      match unmarshalList tbl items elems with
      | .ok vs => .ok (.varr vs)
      | .error e => .error e
    | .object name props _, .jobj jfields =>
      match unmarshalProps tbl props jfields with
      | .ok fs => .ok (.vmodel name fs)
      | .error e => .error e
    | _, _ => .error .typeMismatch
termination_by (sizeOf j, 1)
decreasing_by
  all_goals simp_wf
  all_goals apply Prod.Lex.left
  all_goals simp
  all_goals omega

/-- Element-wise decoding of an array's members (order-preserving). -/
def unmarshalList (tbl : List (String × Definition)) (d : Definition) :
    List Json → Except MarshalError (List Value)
  | [] => .ok []
  | j :: rest =>
    match unmarshal tbl d j with
    | .ok v =>
      match unmarshalList tbl d rest with
      | .ok vs => .ok (v :: vs)
      | .error e => .error e
    | .error e => .error e
termination_by js => (sizeOf js, 0)
decreasing_by
  all_goals simp_wf
  all_goals apply Prod.Lex.left
  all_goals try simp
  all_goals omega

/-- Property-wise decoding of an object: walk the declared properties in
order, decoding the ones present on the wire object and leaving the
absent ones unset. -/
def unmarshalProps (tbl : List (String × Definition))
    (props : List (String × Definition)) (jfields : List (String × Json)) :
    Except MarshalError (List (String × Value)) :=
  match props with
  | [] => .ok []
  | (n, d) :: ps =>
    match hj : dictGet jfields n with
    | some j =>
      match unmarshal tbl d j with
      | .ok v =>
        match unmarshalProps tbl ps jfields with
        | .ok fs => .ok ((n, v) :: fs)
        | .error e => .error e
      | .error e => .error e
    | none => unmarshalProps tbl ps jfields
termination_by (sizeOf jfields, props.length)
decreasing_by
  all_goals simp_wf
  · apply Prod.Lex.left
    exact dictGet_sizeOf jfields _ _ hj
  · apply Prod.Lex.right
    omega
  · apply Prod.Lex.right
    omega

end

/-! ## Valid instances of a Definition -/

/-- Align a Model instance's field bag with an object Definition's
declared properties: walking the properties in order, a field bag is
aligned when it lists exactly the present properties, in declaration
order, with every absent property optional.  The result pairs each
present property's sub-Definition with the instance's value for it. -/
def alignFields : List (String × Definition) → List String →
    List (String × Value) → Option (List (Definition × Value))
  | [], _, [] => some []
  | [], _, _ :: _ => none
  | (n, d) :: ps, required, fields =>
    match fields with
    | (n2, v) :: fs =>
      if n2 = n then
        match alignFields ps required fs with
        | some pairs => some ((d, v) :: pairs)
        | none => none
      else if n ∈ required then none
      else alignFields ps required fields
    | [] =>
      if n ∈ required then none
      else alignFields ps required []

/-- Modelled from the spec: `v` is a valid instance of Definition `d`
(§8's round-trip premise) — primitives match their subtype, every array
element is a valid instance of the `items` Definition, a Model instance
carries the Record Type's name and a field bag aligned with the declared
properties (each present value valid for its property, every required
property present, properties pairwise distinct), and a `$ref` instance is
a valid instance of the resolved target. -/
inductive Valid (tbl : List (String × Definition)) : Definition → Value → Prop where
  | vstr (s : String) : Valid tbl (.prim .pstring) (.vstr s)
  | vint (n : Int) : Valid tbl (.prim .pinteger) (.vint n)
  | vbool (b : Bool) : Valid tbl (.prim .pboolean) (.vbool b)
  | varr (items : Definition) (elems : List Value)
      (helems : ∀ v ∈ elems, Valid tbl items v) :
      Valid tbl (.array items) (.varr elems)
  | vmodel (name : String) (props : List (String × Definition))
      (required : List String) (fields : List (String × Value))
      (pairs : List (Definition × Value))
      (hnodup : (props.map Prod.fst).Nodup)
      (halign : alignFields props required fields = some pairs)
      (hpairs : ∀ p ∈ pairs, Valid tbl p.1 p.2) :
      Valid tbl (.object name props required) (.vmodel name fields)
  | vref (target : String) (d : Definition) (v : Value)
      (hres : dictGet tbl target = some d)
      (hnotref : d.isRef = false)
      (hvalid : Valid tbl d v) :
      Valid tbl (.ref target) v


/-! ## Round-trip lemmas -/

theorem dictGet_eq_none {α : Type} (l : List (String × α)) (n : String)
    (h : n ∉ l.map Prod.fst) : dictGet l n = none := by
  induction l with
  | nil => rfl
  | cons hd tl ih =>
    simp only [List.map_cons, List.mem_cons] at h
    push_neg at h
    simp only [dictGet]
    rw [if_neg (by simpa using (Ne.symm h.1))]
    exact ih h.2

theorem alignFields_names_subset (props : List (String × Definition))
    (required : List String) (fields : List (String × Value))
    (pairs : List (Definition × Value))
    (h : alignFields props required fields = some pairs) :
    ∀ n ∈ fields.map Prod.fst, n ∈ props.map Prod.fst := by
  induction props generalizing fields pairs with
  | nil =>
    cases fields with
    | nil => simp
    | cons f fs => simp [alignFields] at h
  | cons hd ps ih =>
    obtain ⟨n, d⟩ := hd
    cases fields with
    | nil => simp
    | cons f fs =>
      obtain ⟨n2, v⟩ := f
      simp only [alignFields] at h
      by_cases he : n2 = n
      · subst he
        rw [if_pos rfl] at h
        cases halign : alignFields ps required fs with
        | none => rw [halign] at h; cases h
        | some pairs2 =>
          rw [halign] at h
          intro m hm
          simp only [List.map_cons, List.mem_cons] at hm ⊢
          rcases hm with rfl | hm
          · left; rfl
          · right; exact ih fs pairs2 halign m hm
      · rw [if_neg he] at h
        by_cases hr : n ∈ required
        · rw [if_pos hr] at h; cases h
        · rw [if_neg hr] at h
          intro m hm
          simp only [List.map_cons, List.mem_cons]
          right
          exact ih ((n2, v) :: fs) pairs h m hm

theorem resolveDef_nonref (tbl : List (String × Definition)) (d : Definition)
    (h : d.isRef = false) : resolveDef tbl d = some d := by
  cases d <;> simp [Definition.isRef] at h ⊢ <;> rfl

theorem marshal_ref (tbl : List (String × Definition)) (t : String)
    (d : Definition) (v : Value) (h1 : dictGet tbl t = some d)
    (h2 : d.isRef = false) : marshal tbl (.ref t) v = marshal tbl d v := by
  rw [marshal, marshal]
  rw [show resolveDef tbl (.ref t) = some d by simp [resolveDef, h1, h2]]
  rw [resolveDef_nonref tbl d h2]

theorem unmarshal_ref (tbl : List (String × Definition)) (t : String)
    (d : Definition) (j : Json) (h1 : dictGet tbl t = some d)
    (h2 : d.isRef = false) : unmarshal tbl (.ref t) j = unmarshal tbl d j := by
  rw [unmarshal, unmarshal]
  rw [show resolveDef tbl (.ref t) = some d by simp [resolveDef, h1, h2]]
  rw [resolveDef_nonref tbl d h2]

theorem marshalList_roundtrip (tbl : List (String × Definition))
    (items : Definition) (elems : List Value)
    (h : ∀ v ∈ elems, ∃ j, marshal tbl items v = .ok j ∧ unmarshal tbl items j = .ok v) :
    ∃ js, marshalList tbl items elems = .ok js ∧
      unmarshalList tbl items js = .ok elems := by
  induction elems with
  | nil => exact ⟨[], by rw [marshalList], by rw [unmarshalList]⟩
  | cons v vs ih =>
    obtain ⟨j, hm, hu⟩ := h v (by simp)
    obtain ⟨js, hms, hus⟩ := ih (fun w hw => h w (by simp [hw]))
    refine ⟨j :: js, ?_, ?_⟩
    · rw [marshalList, hm, hms]
    · rw [unmarshalList, hu, hus]

theorem marshalProps_roundtrip (tbl : List (String × Definition))
    (props : List (String × Definition)) :
    ∀ (required : List String) (fields fieldsFull : List (String × Value))
      (pairs : List (Definition × Value)),
    (props.map Prod.fst).Nodup →
    alignFields props required fields = some pairs →
    (∀ p ∈ pairs, ∃ j, marshal tbl p.1 p.2 = .ok j ∧ unmarshal tbl p.1 j = .ok p.2) →
    (∀ n ∈ props.map Prod.fst, dictGet fieldsFull n = dictGet fields n) →
    ∃ jfs, marshalProps tbl props required fieldsFull = .ok jfs ∧
      jfs.map Prod.fst = fields.map Prod.fst ∧
      ∀ jfull, (∀ n ∈ props.map Prod.fst, dictGet jfull n = dictGet jfs n) →
        unmarshalProps tbl props jfull = .ok fields := by
  induction props with
  | nil =>
    intro required fields fieldsFull pairs _ halign _ _
    cases fields with
    | nil =>
      refine ⟨[], by rw [marshalProps], by simp, ?_⟩
      intro jfull _
      rw [unmarshalProps]
    | cons f fs => simp [alignFields] at halign
  | cons hd ps ih =>
    obtain ⟨n, d⟩ := hd
    intro required fields fieldsFull pairs hnodup halign hpairs hfull
    simp only [List.map_cons, List.nodup_cons] at hnodup
    obtain ⟨hn_not_ps, hnodup_ps⟩ := hnodup
    have hn_mem : n ∈ ((n, d) :: ps).map Prod.fst := by simp
    cases fields with
    | nil =>
      simp only [alignFields] at halign
      by_cases hr : n ∈ required
      · rw [if_pos hr] at halign; cases halign
      · rw [if_neg hr] at halign
        have hget : dictGet fieldsFull n = none := by
          rw [hfull n hn_mem]; rfl
        obtain ⟨jfs, hm, hnames, hu⟩ :=
          ih required [] fieldsFull pairs hnodup_ps halign hpairs
            (fun m hm2 => by
              rw [hfull m (by simp [hm2])])
        refine ⟨jfs, ?_, hnames, ?_⟩
        · rw [marshalProps, hget, if_neg hr]
          exact hm
        · intro jfull hj
          have hjn : dictGet jfull n = none := by
            rw [hj n hn_mem, dictGet_eq_none]
            rw [hnames]
            simp
          rw [unmarshalProps, hjn]
          exact hu jfull (fun m hm2 => hj m (by simp [hm2]))
    | cons f fs =>
      obtain ⟨n2, v⟩ := f
      simp only [alignFields] at halign
      by_cases he : n2 = n
      · subst he
        rw [if_pos rfl] at halign
        cases halign2 : alignFields ps required fs with
        | none => rw [halign2] at halign; cases halign
        | some pairs2 =>
          rw [halign2] at halign
          cases halign
          obtain ⟨j, hmj0, huj0⟩ := hpairs (d, v) (by simp)
          have hmj : marshal tbl d v = Except.ok j := hmj0
          have huj : unmarshal tbl d j = Except.ok v := huj0
          have hget : dictGet fieldsFull n2 = some v := by
            rw [hfull n2 hn_mem]
            simp [dictGet]
          obtain ⟨jfs2, hm2, hnames2, hu2⟩ :=
            ih required fs fieldsFull pairs2 hnodup_ps halign2
              (fun p hp => hpairs p (by simp [hp]))
              (fun m hm3 => by
                rw [hfull m (by simp [hm3])]
                have hmn : m ≠ n2 := fun hEq => hn_not_ps (hEq ▸ hm3)
                show dictGet ((n2, v) :: fs) m = dictGet fs m
                simp only [dictGet]
                rw [if_neg (fun hEq => hmn hEq.symm)])
          refine ⟨(n2, j) :: jfs2, ?_, by simp [hnames2], ?_⟩
          · simp only [marshalProps, hm2]
            split
            · rename_i v1 hv
              rw [hget] at hv
              cases hv
              rw [hmj]
            · rename_i hv
              rw [hget] at hv
              cases hv
          · intro jfull hj
            have hjn : dictGet jfull n2 = some j := by
              rw [hj n2 hn_mem]
              simp [dictGet]
            have hrec := hu2 jfull (fun m hm3 => by
              rw [hj m (by simp [hm3])]
              have hmn : m ≠ n2 := fun hEq => hn_not_ps (hEq ▸ hm3)
              show dictGet ((n2, j) :: jfs2) m = dictGet jfs2 m
              simp only [dictGet]
              rw [if_neg (fun hEq => hmn hEq.symm)])
            simp only [unmarshalProps, hrec]
            split
            · rename_i j1 hjv
              rw [hjn] at hjv
              cases hjv
              rw [huj]
            · rename_i hjv
              rw [hjn] at hjv
              cases hjv
      · rw [if_neg he] at halign
        by_cases hr : n ∈ required
        · rw [if_pos hr] at halign; cases halign
        · rw [if_neg hr] at halign
          have hsub := alignFields_names_subset ps required ((n2, v) :: fs) pairs halign
          have hn_not_fields : n ∉ ((n2, v) :: fs).map Prod.fst := by
            intro hmem
            exact hn_not_ps (hsub n hmem)
          have hget : dictGet fieldsFull n = none := by
            rw [hfull n hn_mem]
            exact dictGet_eq_none _ n hn_not_fields
          obtain ⟨jfs, hm, hnames, hu⟩ :=
            ih required ((n2, v) :: fs) fieldsFull pairs hnodup_ps halign hpairs
              (fun m hm2 => by rw [hfull m (by simp [hm2])])
          refine ⟨jfs, ?_, hnames, ?_⟩
          · rw [marshalProps, hget, if_neg hr]
            exact hm
          · intro jfull hj
            have hjn : dictGet jfull n = none := by
              rw [hj n hn_mem, dictGet_eq_none]
              rw [hnames]
              exact hn_not_fields
            rw [unmarshalProps, hjn]
            exact hu jfull (fun m hm2 => hj m (by simp [hm2]))

theorem marshal_unmarshal_aux (tbl : List (String × Definition))
    (d : Definition) (v : Value) (h : Valid tbl d v) :
    ∃ j, marshal tbl d v = .ok j ∧ unmarshal tbl d j = .ok v := by
  induction h with
  | vstr s =>
    exact ⟨.jstr s, by rw [marshal]; rfl, by rw [unmarshal]; rfl⟩
  | vint n =>
    exact ⟨.jnum n, by rw [marshal]; rfl, by rw [unmarshal]; rfl⟩
  | vbool b =>
    exact ⟨.jbool b, by rw [marshal]; rfl, by rw [unmarshal]; rfl⟩
  | varr items elems helems ih =>
    obtain ⟨js, hms, hus⟩ := marshalList_roundtrip tbl items elems ih
    refine ⟨.jarr js, ?_, ?_⟩
    · rw [marshal]
      simp only [resolveDef]
      rw [hms]
    · rw [unmarshal]
      simp only [resolveDef]
      rw [hus]
  | vmodel name props required fields pairs hnodup halign hpairs ih =>
    obtain ⟨jfs, hm, hnames, hu⟩ :=
      marshalProps_roundtrip tbl props required fields fields pairs hnodup halign
        ih (fun _ _ => rfl)
    refine ⟨.jobj jfs, ?_, ?_⟩
    · rw [marshal]
      simp only [resolveDef]
      rw [hm]
    · rw [unmarshal]
      simp only [resolveDef]
      rw [hu jfs (fun _ _ => rfl)]
  | vref target d2 v2 hres hnotref hvalid ih =>
    obtain ⟨j, hm, hu⟩ := ih
    exact ⟨j, by rw [marshal_ref tbl target d2 v2 hres hnotref]; exact hm,
      by rw [unmarshal_ref tbl target d2 j hres hnotref]; exact hu⟩

/-- C3: for any value `v` and Definition `d` such that `v` is a valid
instance of `d`, decoding the encoding of `v` under `d` yields a value
equal to `v` — for primitives, arrays, and objects, including nested and
self-referential Record Types with finite data. -/
theorem marshal_unmarshal_roundtrip (tbl : List (String × Definition))
    (d : Definition) (v : Value) (h : Valid tbl d v) :
    ∃ j, marshal tbl d v = .ok j ∧ unmarshal tbl d j = .ok v :=
  marshal_unmarshal_aux tbl d v h

/-- A self-referential Record Type: a list node whose `next` property
refers back to its own Definition. -/
def nodeObjDef : Definition :=
  .object "Node" [("value", .prim .pinteger), ("next", .ref "Node")] ["value"]

/-- A definitions table containing the self-referential `Node` type. -/
def nodeDefs : List (String × Definition) := [("Node", nodeObjDef)]

/-- A finite two-element instance of the self-referential `Node` type
(the inner node leaves the optional `next` property unset). -/
def innerNode : Value := .vmodel "Node" [("value", .vint 2)]

def nodeVal : Value := .vmodel "Node" [("value", .vint 1), ("next", innerNode)]

theorem marshal_unmarshal_roundtrip_witness :
    Valid nodeDefs (.ref "Node") nodeVal ∧
    ∃ j, marshal nodeDefs (.ref "Node") nodeVal = .ok j ∧
      unmarshal nodeDefs (.ref "Node") j = .ok nodeVal := by
  have hinner : Valid nodeDefs nodeObjDef innerNode := by
    show Valid nodeDefs
      (.object "Node" [("value", .prim .pinteger), ("next", .ref "Node")] ["value"])
      (.vmodel "Node" [("value", .vint 2)])
    apply Valid.vmodel "Node" _ _ _ [(Definition.prim PrimType.pinteger, Value.vint 2)]
    · decide
    · rfl
    · intro p hp
      rcases List.mem_cons.mp hp with rfl | hp2
      · exact Valid.vint 2
      · simp at hp2
  have houter : Valid nodeDefs nodeObjDef nodeVal := by
    show Valid nodeDefs
      (.object "Node" [("value", .prim .pinteger), ("next", .ref "Node")] ["value"])
      (.vmodel "Node" [("value", .vint 1), ("next", innerNode)])
    apply Valid.vmodel "Node" _ _ _
      [(Definition.prim PrimType.pinteger, Value.vint 1),
       (Definition.ref "Node", innerNode)]
    · decide
    · rfl
    · intro p hp
      rcases List.mem_cons.mp hp with rfl | hp2
      · exact Valid.vint 1
      rcases List.mem_cons.mp hp2 with rfl | hp3
      · exact Valid.vref "Node" nodeObjDef innerNode rfl rfl hinner
      · simp at hp3
  have hvalid : Valid nodeDefs (.ref "Node") nodeVal :=
    Valid.vref "Node" nodeObjDef nodeVal rfl rfl houter
  exact ⟨hvalid, marshal_unmarshal_roundtrip nodeDefs (.ref "Node") nodeVal hvalid⟩

/-! ## Parameters, specs and operations (`src/bravado/mapping/operation.py`) -/

/-- The wire location of a parameter (`in` in Swagger 2.0). -/
inductive Location where
  | path
  | query
  | header
  | formData
  | body
  deriving DecidableEq

/-- Modelled from the spec: `bravado.mapping.param.Param` is not shipped
under `src/`.  Per §3 a Param carries a name, a wire location, a required
flag and an optional default value; the modelled attributes are the ones
`Operation` reads (`name`, `required`, `has_default`) together with the
location and default that drive `marshal_param`. -/
structure Param where
  name : String
  location : Location
  required : Bool
  default : Option Json

/-- `Param.has_default()`: whether a default value is declared. -/
def Param.has_default (p : Param) : Bool := p.default.isSome

/-- One entry of an operation's response table: an optional `schema`
Definition for the result body. -/
structure ResponseSpec where
  schema : Option Definition

/-- The operation specification dict (`op_spec`): optional
`operationId`, declared `parameters`, and the `responses` table keyed by
status-code string (with an optional `default` key). -/
structure OpSpec where
  operationId : Option String
  parameters : List Param
  responses : List (String × ResponseSpec)

/-- A path item of `spec_dict['paths']`: the path-level `parameters`. -/
structure PathItem where
  parameters : List Param

/-- The resolved Swagger spec as `Operation` uses it: `api_url`, the
`paths` table of `spec_dict`, and the shared `definitions` table. -/
structure Spec where
  api_url : String
  paths : List (String × PathItem)
  definitions : List (String × Definition)

/-- `Operation.__init__` state: the spec, path name, HTTP method, the
operation spec dict, and the `params` dict built by `build_params`. -/
structure Operation where
  swagger_spec : Spec
  path_name : String
  http_method : String
  op_spec : OpSpec
  params : List (String × Param)

/-- `Operation.build_params`: concatenate the operation-level parameter
specs with the path-level ones (`op_param_specs + path_param_specs`) and
insert each into the `params` dict keyed by name — a later spec with an
already-present name overwrites the earlier entry.  `none` when the
operation's path is missing from `spec_dict['paths']` (a `KeyError` in
the source). -/
def build_params (swagger_spec : Spec) (path_name : String) (op_spec : OpSpec) :
    Option (List (String × Param)) :=
  match dictGet swagger_spec.paths path_name with
  | none => none
  | some path_specs =>
    let op_param_specs := op_spec.parameters
    let path_param_specs := path_specs.parameters
    let param_specs := op_param_specs ++ path_param_specs
    some (param_specs.foldl (fun ps param => dictSet ps param.name param) [])

/-- `Operation.from_spec`: create the operation and build its params. -/
def Operation.from_spec (swagger_spec : Spec) (path_name : String)
    (http_method : String) (op_spec : OpSpec) : Option Operation :=
  match build_params swagger_spec path_name op_spec with
  | none => none
  | some ps =>
    some { swagger_spec := swagger_spec, path_name := path_name,
           http_method := http_method, op_spec := op_spec, params := ps }

/-- Python `str.strip('_')`: drop leading and trailing underscores. -/
def stripUnderscores (s : String) : String :=
  .mk (((s.toList.dropWhile (fun c => c = '_')).reverse.dropWhile
    (fun c => c = '_')).reverse)

/-- `Operation.operation_id`: the explicit `operationId` when present,
otherwise derived from the HTTP method and request path by replacing
`/`, the opening brace and the closing brace with `_`, collapsing `__`,
and stripping leading/trailing underscores. -/
def Operation.operation_id (op : Operation) : String :=
  match op.op_spec.operationId with
  | some oid => oid
  | none =>
    stripUnderscores (((((op.http_method ++ "_" ++ op.path_name).replace
      "/" "_").replace "\x7b" "_").replace "\x7d" "_").replace "__" "_")

/-- The request dict built by `construct_request`: method, url, the
`params` container for query/formData entries, the headers taken from
`_request_options`, and the body payload. -/
structure Request where
  method : String
  url : String
  params : List (String × Json)
  headers : Json
  body : Option Json

/-- A hexadecimal digit character (uppercase). -/
def hexDigit (n : Nat) : Char :=
  if n < 10 then Char.ofNat (48 + n) else Char.ofNat (55 + n)

/-- Percent-encode one character (unreserved characters pass through;
the model covers single-byte code points). -/
def percentEncodeChar (c : Char) : List Char :=
  if c.isAlphanum ∨ c = '-' ∨ c = '.' ∨ c = '_' ∨ c = '~' then [c]
  else ['%', hexDigit (c.toNat / 16 % 16), hexDigit (c.toNat % 16)]

/-- Percent-encode a string for use in a URL path segment. -/
def percentEncode (s : String) : String :=
  .mk (s.toList.flatMap percentEncodeChar)

/-- A scalar JSON value rendered as path-segment text. -/
def jsonRender : Json → String
  | .jstr s => s
  | .jnum n => toString n
  | .jbool b => if b then "true" else "false"
  | .jnull => ""
  | .jarr _ => ""
  | .jobj _ => ""

/-- Modelled from the spec: `bravado.mapping.param.marshal_param` is not
shipped under `src/`.  Per §4.4 the value is encoded per Param location
and merged into the request: `path` substitutes a URL-encoded
representation into the path template at the named placeholder,
`query`/`formData` add a named entry to the request's params container,
`header` adds a named header entry, and `body` sets the payload.  When
called with no value (the defaulting path of `construct_params`) the
Param's declared default is used (`marshal_value` selects it). -/
def marshal_value (param : Param) (value : Option Json) : Json :=
  match value with
  | some v => v
  | none => param.default.getD .jnull

def marshal_param (param : Param) (value : Option Json) (request : Request) :
    Request :=
  let v : Json := marshal_value param value
  match param.location with
  | .path =>
    { request with
      url := request.url.replace ("\x7b" ++ param.name ++ "\x7d")
        (percentEncode (jsonRender v)) }
  | .query => { request with params := dictSet request.params param.name v }
  | .formData => { request with params := dictSet request.params param.name v }
  | .header => { request with headers := jsonSet request.headers param.name v }
  | .body => { request with body := some v }

/-- The `TypeError`s raised by `Operation.construct_params` (the spec's
`InvalidArgumentError` and `MissingArgumentError`). -/
inductive OpCallError where
  | invalidArgument (operationId paramName : String)
  | missingArgument (paramName : String)
  deriving DecidableEq

/-- The exact message each raise site formats:
`"{0} does not have parameter {1}".format(operation_id, param_name)` and
`"{0} is a required parameter".format(param_name)`. -/
def OpCallError.message : OpCallError → String
  | .invalidArgument operationId paramName =>
    operationId ++ " does not have parameter " ++ paramName
  | .missingArgument paramName => paramName ++ " is a required parameter"

/-- The first loop of `construct_params`: for each caller-supplied
name/value pair, pop the matching Param off the working copy of the
params dict (an unknown name raises) and marshal the value into the
request. -/
def consume_kwargs (operationId : String) :
    List (String × Param) → Request → List (String × Json) →
    Except OpCallError (List (String × Param) × Request)
  | current_params, request, [] => .ok (current_params, request)
  | current_params, request, (param_name, param_value) :: rest =>
    match dictPop current_params param_name with
    | none => .error (.invalidArgument operationId param_name)
    | some (param, remaining) =>
      consume_kwargs operationId remaining
        (marshal_param param (some param_value) request) rest

/-- The second loop of `construct_params`: every remaining required
Param raises; every remaining non-required Param with a default is
marshalled into the request using that default. -/
def apply_remaining : List (String × Param) → Request →
    Except OpCallError Request
  | [], request => .ok request
  | (_, remaining_param) :: rest, request =>
    if remaining_param.required then
      .error (.missingArgument remaining_param.name)
    else if remaining_param.has_default then
      apply_remaining rest (marshal_param remaining_param none request)
    else apply_remaining rest request

/-- `Operation.construct_params`: validate and marshal the supplied
arguments into the request, working on a copy of `self.params`
(`current_params = self.params.copy()`), then handle the remaining
declared parameters. -/
def Operation.construct_params (op : Operation) (request : Request)
    (op_kwargs : List (String × Json)) : Except OpCallError Request :=
  match consume_kwargs op.operation_id op.params request op_kwargs with
  | .error e => .error e
  | .ok (current_params, request2) => apply_remaining current_params request2

/-- `Operation.construct_request`: pop the reserved `_request_options`
key off the kwargs, build the fresh request dict (method, url =
`api_url + path_name`, empty params, headers from
`_request_options.get('headers', {})`), then validate and marshal the
remaining kwargs via `construct_params`. -/
def Operation.construct_request (op : Operation)
    (kwargs : List (String × Json)) : Except OpCallError Request :=
  let popped := dictPopD kwargs "_request_options" (.jobj [])
  let request_options := popped.1
  let remaining_kwargs := popped.2
  let request : Request :=
    { method := op.http_method,
      url := op.swagger_spec.api_url ++ op.path_name,
      params := [],
      headers := (jsonGet request_options "headers").getD (.jobj []),
      body := none }
  op.construct_params request remaining_kwargs

/-! ## Response handling (`Operation.__call__.response_future`) -/

/-- The raw response the transport collaborator hands back: status code,
raw body text, and the parsed-JSON accessor. -/
structure HttpResponse where
  status_code : Nat
  text : String
  json : Json

/-- What `post_receive` hands back: a value decoded per the response
schema, or the parsed JSON unmodified when no schema applies. -/
inductive ResponseResult where
  | decoded (v : Value)
  | raw (j : Json)

/-- The failures of response handling: the `SwaggerError` raised when the
status code matches neither an explicit response spec, `default`, nor the
implicit-200 fallback (carrying the raw response), or a decode failure of
the body. -/
inductive RespError where
  | unexpectedResponse (response : HttpResponse)
  | decodeFailure (e : MarshalError)

/-- Modelled from the spec: `bravado.response.post_receive` is not
shipped under `src/`.  Per §4.5, when the selected response spec declares
a result Definition the parsed body is decoded per §4.3, otherwise the
parsed JSON is returned unmodified. -/
def post_receive (response_dict : Json) (swagger_type : Option Definition)
    (definitions : List (String × Definition)) :
    Except RespError ResponseResult :=
  match swagger_type with
  | some d =>
    match unmarshal definitions d response_dict with
    | .ok v => .ok (.decoded v)
    | .error e => .error (.decodeFailure e)
  | none => .ok (.raw response_dict)

/-- `Operation.__call__.response_future`: an empty body resolves to no
result; otherwise the status code selects a response spec (exact match,
else `default`); with no spec selected, status 200 proceeds schema-less
(a logged warning in the source) and any other status raises
`SwaggerError` carrying the response; the parsed body is then handed to
`post_receive` with the selected spec's schema (if any). -/
def Operation.response_future (op : Operation) (response : HttpResponse) :
    Except RespError (Option ResponseResult) :=
  if response.text = "" then .ok none
  else
    let status_code := toString response.status_code
    let default_response_spec := dictGet op.op_spec.responses "default"
    let response_spec :=
      match dictGet op.op_spec.responses status_code with
      | some rs => some rs
      | none => default_response_spec
    match response_spec with
    | none =>
      if status_code = "200" then
        match post_receive response.json none op.swagger_spec.definitions with
        | .ok r => .ok (some r)
        | .error e => .error e
      else .error (.unexpectedResponse response)
    | some rs =>
      match post_receive response.json rs.schema op.swagger_spec.definitions with
      | .ok r => .ok (some r)
      | .error e => .error e

/-- The future `Operation.__call__` returns: the constructed request
together with the response callback; resolving it hands the request to
the transport and runs the callback on the raw response. -/
structure HTTPFuture where
  request : Request
  callback : HttpResponse → Except RespError (Option ResponseResult)

/-- `Operation.__call__`: construct the request synchronously, then wrap
it in an `HTTPFuture` with `response_future` as the callback.  The first
component of the result is the operation object after the call (its
attributes are never assigned by the call, so it is returned unchanged);
when request construction raises, no future is created. -/
def Operation.call (op : Operation) (kwargs : List (String × Json)) :
    Operation × Except OpCallError HTTPFuture :=
  match op.construct_request kwargs with
  | .error e => (op, .error e)
  | .ok request =>
    (op, .ok { request := request, callback := op.response_future })

/-! ## Dictionary lemmas -/

theorem dictGet_none_iff {α : Type} (l : List (String × α)) (k : String) :
    dictGet l k = none ↔ k ∉ l.map Prod.fst := by
  induction l with
  | nil => simp [dictGet]
  | cons hd tl ih =>
    obtain ⟨k1, v1⟩ := hd
    simp only [dictGet, List.map_cons, List.mem_cons]
    by_cases h : k1 = k
    · subst h
      simp
    · rw [if_neg h]
      rw [ih]
      constructor
      · intro hn hor
        rcases hor with rfl | hm
        · exact h rfl
        · exact hn hm
      · intro hn hm
        exact hn (Or.inr hm)

theorem dictGet_isSome_iff {α : Type} (l : List (String × α)) (k : String) :
    (dictGet l k).isSome ↔ k ∈ l.map Prod.fst := by
  rcases h : dictGet l k with _ | v
  · simp only [Option.isSome_none, Bool.false_eq_true, false_iff]
    exact (dictGet_none_iff l k).mp h
  · simp only [Option.isSome_some, true_iff]
    by_contra hm
    rw [(dictGet_none_iff l k).mpr hm] at h
    cases h

theorem eraseKey_of_not_mem {α : Type} (l : List (String × α)) (k : String)
    (h : k ∉ l.map Prod.fst) : eraseKey l k = l := by
  induction l with
  | nil => rfl
  | cons hd tl ih =>
    obtain ⟨k1, v1⟩ := hd
    simp only [List.map_cons, List.mem_cons] at h
    push_neg at h
    simp only [eraseKey]
    rw [if_neg (fun hEq => h.1 hEq.symm), ih h.2]

theorem mem_keys_eraseKey {α : Type} (l : List (String × α)) (k n : String)
    (hne : n ≠ k) : n ∈ (eraseKey l k).map Prod.fst ↔ n ∈ l.map Prod.fst := by
  induction l with
  | nil => simp [eraseKey]
  | cons hd tl ih =>
    obtain ⟨k1, v1⟩ := hd
    simp only [eraseKey]
    by_cases h : k1 = k
    · subst h
      simp only [List.map_cons, List.mem_cons]
      constructor
      · intro hm; exact Or.inr hm
      · intro hm
        rcases hm with rfl | hm
        · exact absurd rfl hne
        · exact hm
    · rw [if_neg h]
      simp only [List.map_cons, List.mem_cons]
      rw [ih]

theorem keys_eraseKey_subset {α : Type} (l : List (String × α)) (k n : String)
    (h : n ∈ (eraseKey l k).map Prod.fst) : n ∈ l.map Prod.fst := by
  induction l with
  | nil => simpa [eraseKey] using h
  | cons hd tl ih =>
    obtain ⟨k1, v1⟩ := hd
    simp only [eraseKey] at h
    by_cases hEq : k1 = k
    · rw [if_pos hEq] at h
      simp only [List.map_cons, List.mem_cons]
      exact Or.inr h
    · rw [if_neg hEq] at h
      simp only [List.map_cons, List.mem_cons] at h ⊢
      rcases h with rfl | h
      · exact Or.inl rfl
      · exact Or.inr (ih h)

theorem not_mem_keys_eraseKey {α : Type} (l : List (String × α)) (k : String)
    (hnodup : (l.map Prod.fst).Nodup) : k ∉ (eraseKey l k).map Prod.fst := by
  induction l with
  | nil => simp [eraseKey]
  | cons hd tl ih =>
    obtain ⟨k1, v1⟩ := hd
    simp only [List.map_cons, List.nodup_cons] at hnodup
    simp only [eraseKey]
    by_cases h : k1 = k
    · subst h
      rw [if_pos rfl]
      exact hnodup.1
    · rw [if_neg h]
      simp only [List.map_cons, List.mem_cons]
      intro hor
      rcases hor with rfl | hm
      · exact h rfl
      · exact ih hnodup.2 hm

theorem mem_eraseKey_of_ne {α : Type} (l : List (String × α)) (k : String)
    (e : String × α) (he : e ∈ l) (hne : e.1 ≠ k) : e ∈ eraseKey l k := by
  induction l with
  | nil => cases he
  | cons hd tl ih =>
    obtain ⟨k1, v1⟩ := hd
    simp only [eraseKey]
    by_cases h : k1 = k
    · subst h
      rw [if_pos rfl]
      rcases List.mem_cons.mp he with rfl | hm
      · exact absurd rfl hne
      · exact hm
    · rw [if_neg h]
      rcases List.mem_cons.mp he with rfl | hm
      · exact List.mem_cons_self _ _
      · exact List.mem_cons_of_mem _ (ih hm)

theorem mem_of_mem_eraseKey {α : Type} (l : List (String × α)) (k : String)
    (e : String × α) (he : e ∈ eraseKey l k) : e ∈ l := by
  induction l with
  | nil => simpa [eraseKey] using he
  | cons hd tl ih =>
    obtain ⟨k1, v1⟩ := hd
    simp only [eraseKey] at he
    by_cases h : k1 = k
    · rw [if_pos h] at he
      exact List.mem_cons_of_mem _ he
    · rw [if_neg h] at he
      rcases List.mem_cons.mp he with rfl | hm
      · exact List.mem_cons_self _ _
      · exact List.mem_cons_of_mem _ (ih hm)

theorem keys_eraseKey_nodup {α : Type} (l : List (String × α)) (k : String)
    (hnodup : (l.map Prod.fst).Nodup) : ((eraseKey l k).map Prod.fst).Nodup := by
  induction l with
  | nil => simp [eraseKey]
  | cons hd tl ih =>
    obtain ⟨k1, v1⟩ := hd
    simp only [List.map_cons, List.nodup_cons] at hnodup
    simp only [eraseKey]
    by_cases h : k1 = k
    · rw [if_pos h]
      exact hnodup.2
    · rw [if_neg h]
      simp only [List.map_cons, List.nodup_cons]
      refine ⟨fun hm => hnodup.1 (keys_eraseKey_subset tl k k1 hm), ih hnodup.2⟩

/-! ## Lemmas about the construct_params loops -/

theorem consume_kwargs_invalid_mem (operationId : String)
    (ks : List (String × Json)) :
    ∀ (cur : List (String × Param)) (request : Request) (oid2 n : String),
    consume_kwargs operationId cur request ks = .error (.invalidArgument oid2 n) →
    n ∈ ks.map Prod.fst := by
  induction ks with
  | nil =>
    intro cur request oid2 n h
    cases h
  | cons hd rest ih =>
    obtain ⟨n0, v0⟩ := hd
    intro cur request oid2 n h
    simp only [consume_kwargs] at h
    cases hp : dictPop cur n0 with
    | none =>
      rw [hp] at h
      cases h
      simp
    | some pr =>
      rw [hp] at h
      obtain ⟨param, remaining⟩ := pr
      simp only [List.map_cons, List.mem_cons]
      exact Or.inr (ih remaining _ oid2 n h)

theorem apply_remaining_not_invalid (l : List (String × Param)) :
    ∀ (request : Request) (oid n : String),
    apply_remaining l request ≠ .error (.invalidArgument oid n) := by
  induction l with
  | nil =>
    intro request oid n h
    cases h
  | cons hd rest ih =>
    obtain ⟨k0, p0⟩ := hd
    intro request oid n h
    simp only [apply_remaining] at h
    by_cases hr : p0.required
    · rw [if_pos hr] at h
      cases h
    · rw [if_neg hr] at h
      by_cases hd2 : p0.has_default
      · rw [if_pos hd2] at h
        exact ih _ oid n h
      · rw [if_neg hd2] at h
        exact ih _ oid n h

/-- The names consumed by the first loop of `construct_params`, removed
in supplied order from the working copy of the params dict. -/
def removeKeys {α : Type} (cur : List (String × α)) (names : List String) :
    List (String × α) :=
  names.foldl eraseKey cur

theorem consume_kwargs_ok_params (operationId : String)
    (ks : List (String × Json)) :
    ∀ (cur cur2 : List (String × Param)) (request request2 : Request),
    consume_kwargs operationId cur request ks = .ok (cur2, request2) →
    cur2 = removeKeys cur (ks.map Prod.fst) := by
  induction ks with
  | nil =>
    intro cur cur2 request request2 h
    cases h
    rfl
  | cons hd rest ih =>
    obtain ⟨n0, v0⟩ := hd
    intro cur cur2 request request2 h
    simp only [consume_kwargs] at h
    cases hp : dictPop cur n0 with
    | none =>
      rw [hp] at h
      cases h
    | some pr =>
      rw [hp] at h
      obtain ⟨param, remaining⟩ := pr
      have hrem : remaining = eraseKey cur n0 := by
        unfold dictPop at hp
        cases hg : dictGet cur n0 with
        | none => rw [hg] at hp; cases hp
        | some p => rw [hg] at hp; cases hp; rfl
      subst hrem
      exact ih _ _ _ _ h

theorem consume_kwargs_all_known (operationId : String)
    (ks : List (String × Json)) :
    ∀ (cur : List (String × Param)) (request : Request),
    (ks.map Prod.fst).Nodup →
    (∀ n ∈ ks.map Prod.fst, n ∈ cur.map Prod.fst) →
    ∃ request2, consume_kwargs operationId cur request ks =
      .ok (removeKeys cur (ks.map Prod.fst), request2) := by
  induction ks with
  | nil =>
    intro cur request _ _
    exact ⟨request, rfl⟩
  | cons hd rest ih =>
    obtain ⟨n0, v0⟩ := hd
    intro cur request hnodup hknown
    simp only [List.map_cons, List.nodup_cons] at hnodup
    have hmem : n0 ∈ cur.map Prod.fst := hknown n0 (by simp)
    have hsome : (dictGet cur n0).isSome := (dictGet_isSome_iff cur n0).mpr hmem
    cases hg : dictGet cur n0 with
    | none => rw [hg] at hsome; cases hsome
    | some p =>
      obtain ⟨request2, hrec⟩ :=
        ih (eraseKey cur n0) (marshal_param p (some v0) request) hnodup.2
          (fun m hm => by
            rw [mem_keys_eraseKey cur n0 m
              (fun hEq => hnodup.1 (hEq ▸ hm))]
            exact hknown m (by simp [hm]))
      refine ⟨request2, ?_⟩
      simp only [consume_kwargs]
      rw [show dictPop cur n0 = some (p, eraseKey cur n0) by
        unfold dictPop
        rw [hg]]
      exact hrec

theorem consume_kwargs_unknown (operationId : String)
    (ks : List (String × Json)) :
    ∀ (cur : List (String × Param)) (request : Request),
    (ks.map Prod.fst).Nodup →
    (∃ m ∈ ks.map Prod.fst, m ∉ cur.map Prod.fst) →
    ∃ n, n ∈ ks.map Prod.fst ∧ n ∉ cur.map Prod.fst ∧
      consume_kwargs operationId cur request ks =
        .error (.invalidArgument operationId n) := by
  induction ks with
  | nil =>
    intro cur request _ hex
    obtain ⟨m, hm, _⟩ := hex
    cases hm
  | cons hd rest ih =>
    obtain ⟨n0, v0⟩ := hd
    intro cur request hnodup hex
    simp only [List.map_cons, List.nodup_cons] at hnodup
    by_cases h0 : n0 ∈ cur.map Prod.fst
    · obtain ⟨m, hm, hm2⟩ := hex
      have hmne : m ≠ n0 := fun hEq => hm2 (hEq ▸ h0)
      have hmrest : m ∈ rest.map Prod.fst := by
        rcases List.mem_cons.mp hm with rfl | h
        · exact absurd rfl hmne
        · exact h
      cases hg : dictGet cur n0 with
      | none =>
        exact absurd h0 ((dictGet_none_iff cur n0).mp hg)
      | some p =>
        obtain ⟨n, hn1, hn2, hn3⟩ :=
          ih (eraseKey cur n0) (marshal_param p (some v0) request) hnodup.2
            ⟨m, hmrest, fun hmm =>
              hm2 (keys_eraseKey_subset cur n0 m hmm)⟩
        have hne : n ≠ n0 := fun hEq => hnodup.1 (hEq ▸ hn1)
        refine ⟨n, by simp [hn1], ?_, ?_⟩
        · intro hmem
          exact hn2 ((mem_keys_eraseKey cur n0 n hne).mpr hmem)
        · simp only [consume_kwargs]
          rw [show dictPop cur n0 = some (p, eraseKey cur n0) by
            unfold dictPop
            rw [hg]]
          exact hn3
    · refine ⟨n0, by simp, h0, ?_⟩
      simp only [consume_kwargs]
      rw [show dictPop cur n0 = none by
        unfold dictPop
        rw [(dictGet_none_iff cur n0).mpr h0]]

theorem apply_remaining_missing (l : List (String × Param)) :
    ∀ (request : Request),
    (∃ pr ∈ l, pr.2.required = true) →
    ∃ pr, pr ∈ l ∧ pr.2.required = true ∧
      apply_remaining l request = .error (.missingArgument pr.2.name) := by
  induction l with
  | nil =>
    intro request hex
    obtain ⟨pr, hm, _⟩ := hex
    cases hm
  | cons hd rest ih =>
    obtain ⟨k0, p0⟩ := hd
    intro request hex
    by_cases hr : p0.required
    · refine ⟨(k0, p0), List.mem_cons_self _ _, hr, ?_⟩
      simp only [apply_remaining]
      rw [if_pos hr]
    · have hex2 : ∃ pr ∈ rest, pr.2.required = true := by
        obtain ⟨pr, hm, hreq⟩ := hex
        rcases List.mem_cons.mp hm with rfl | h
        · exact absurd hreq (by simp [hr])
        · exact ⟨pr, h, hreq⟩
      by_cases hd2 : p0.has_default
      · obtain ⟨pr, hm, hreq, hres⟩ :=
          ih (marshal_param p0 none request) hex2
        refine ⟨pr, List.mem_cons_of_mem _ hm, hreq, ?_⟩
        simp only [apply_remaining]
        rw [if_neg hr, if_pos hd2]
        exact hres
      · obtain ⟨pr, hm, hreq, hres⟩ := ih request hex2
        refine ⟨pr, List.mem_cons_of_mem _ hm, hreq, ?_⟩
        simp only [apply_remaining]
        rw [if_neg hr, if_neg hd2]
        exact hres

theorem mem_removeKeys {α : Type} (names : List String) :
    ∀ (cur : List (String × α)) (e : String × α),
    e ∈ cur → e.1 ∉ names → e ∈ removeKeys cur names := by
  induction names with
  | nil =>
    intro cur e he _
    exact he
  | cons n0 rest ih =>
    intro cur e he hnot
    simp only [List.mem_cons] at hnot
    push_neg at hnot
    exact ih (eraseKey cur n0) e
      (mem_eraseKey_of_ne cur n0 e he hnot.1) hnot.2

theorem removeKeys_sub {α : Type} (names : List String) :
    ∀ (cur : List (String × α)) (e : String × α),
    e ∈ removeKeys cur names → e ∈ cur := by
  induction names with
  | nil =>
    intro cur e he
    exact he
  | cons n0 rest ih =>
    intro cur e he
    exact mem_of_mem_eraseKey cur n0 e (ih (eraseKey cur n0) e he)

theorem removeKeys_keys_nodup {α : Type} (names : List String) :
    ∀ (cur : List (String × α)),
    (cur.map Prod.fst).Nodup → ((removeKeys cur names).map Prod.fst).Nodup := by
  induction names with
  | nil =>
    intro cur h
    exact h
  | cons n0 rest ih =>
    intro cur h
    exact ih (eraseKey cur n0) (keys_eraseKey_nodup cur n0 h)

theorem mem_removeKeys_not_supplied {α : Type} (names : List String) :
    ∀ (cur : List (String × α)) (e : String × α),
    (cur.map Prod.fst).Nodup → e ∈ removeKeys cur names → e.1 ∉ names := by
  induction names with
  | nil =>
    intro cur e _ _ h
    cases h
  | cons n0 rest ih =>
    intro cur e hnodup he
    simp only [List.mem_cons]
    push_neg
    constructor
    · intro hEq
      have he2 : e ∈ eraseKey cur n0 :=
        removeKeys_sub rest (eraseKey cur n0) e he
      have : e.1 ∈ (eraseKey cur n0).map Prod.fst :=
        List.mem_map_of_mem Prod.fst he2
      rw [hEq] at this
      exact not_mem_keys_eraseKey cur n0 hnodup this
    · exact ih (eraseKey cur n0) e (keys_eraseKey_nodup cur n0 hnodup) he

/-! ## Claim theorems: response handling -/

/-- C5: for every response whose body is empty, the future resolves to no
result (the caller receives nothing, not an error), regardless of any
result Definition declared in the operation's response specs. -/
theorem response_future_empty_body (op : Operation) (response : HttpResponse)
    (h : response.text = "") :
    op.response_future response = .ok none := by
  unfold Operation.response_future
  rw [if_pos h]

/-- A sample operation whose one declared response (`200`) carries a
result Definition, so an empty body resolving to no result is visibly
independent of the declared schema. -/
def getPetOp : Operation :=
  { swagger_spec :=
      { api_url := "http://localhost/api",
        paths := [("/pet", { parameters := [] })],
        definitions := [] },
    path_name := "/pet",
    http_method := "get",
    op_spec :=
      { operationId := some "getPet",
        parameters := [],
        responses := [("200", { schema := some (.array (.prim .pstring)) })] },
    params := [] }

theorem response_future_empty_body_witness :
    getPetOp.response_future { status_code := 204, text := "", json := .jnull } =
      .ok none :=
  response_future_empty_body getPetOp
    { status_code := 204, text := "", json := .jnull } rfl

/-- C2: when a response has a non-empty body, the response spec is
selected with the precedence: exact match of the status-code string in
the operation's response table, else the `default` entry, else a status
of 200 is treated as an implicit schema-less success (a warning, not an
error), and any other unmatched status raises a fatal error (the
`SwaggerError` the spec calls `UnexpectedResponseError`) carrying the
raw response. -/
theorem response_future_precedence (op : Operation) (response : HttpResponse)
    (hbody : ¬ response.text = "") :
    (∀ rs, dictGet op.op_spec.responses (toString response.status_code) = some rs →
      op.response_future response =
        match post_receive response.json rs.schema op.swagger_spec.definitions with
        | .ok r => .ok (some r)
        | .error e => .error e) ∧
    (dictGet op.op_spec.responses (toString response.status_code) = none →
      ∀ rs, dictGet op.op_spec.responses "default" = some rs →
      op.response_future response =
        match post_receive response.json rs.schema op.swagger_spec.definitions with
        | .ok r => .ok (some r)
        | .error e => .error e) ∧
    (dictGet op.op_spec.responses (toString response.status_code) = none →
      dictGet op.op_spec.responses "default" = none →
      toString response.status_code = "200" →
      op.response_future response = .ok (some (.raw response.json))) ∧
    (dictGet op.op_spec.responses (toString response.status_code) = none →
      dictGet op.op_spec.responses "default" = none →
      ¬ toString response.status_code = "200" →
      op.response_future response = .error (.unexpectedResponse response)) := by
  refine ⟨?_, ?_, ?_, ?_⟩
  · intro rs hrs
    unfold Operation.response_future
    rw [if_neg hbody]
    simp only [hrs]
  · intro hnone rs hdef
    unfold Operation.response_future
    rw [if_neg hbody]
    simp only [hnone, hdef]
  · intro hnone hdef h200
    unfold Operation.response_future
    rw [if_neg hbody]
    rw [h200] at hnone
    simp only [h200, hnone, hdef]
    simp [post_receive]
  · intro hnone hdef hne
    unfold Operation.response_future
    rw [if_neg hbody]
    simp only [hnone, hdef]
    rw [if_neg hne]

/-- An operation declaring no responses at all, and a 404 response with a
non-empty body: neither an exact match, nor `default`, nor the implicit
200 applies. -/
def deletePetOp : Operation :=
  { swagger_spec :=
      { api_url := "http://localhost/api",
        paths := [("/pet", { parameters := [] })],
        definitions := [] },
    path_name := "/pet",
    http_method := "delete",
    op_spec :=
      { operationId := some "deletePet",
        parameters := [],
        responses := [] },
    params := [] }

def resp404 : HttpResponse :=
  { status_code := 404, text := "not found", json := .jstr "not found" }

theorem response_future_precedence_witness :
    deletePetOp.response_future resp404 =
      .error (.unexpectedResponse resp404) :=
  (response_future_precedence deletePetOp resp404 (by decide)).2.2.2
    rfl rfl (by decide)

/-! ## Claim C1: same-named path-level vs operation-level parameters -/

theorem dictGet_dictSet {α : Type} (l : List (String × α)) (k : String) (v : α)
    (n : String) :
    dictGet (dictSet l k v) n = if k = n then some v else dictGet l n := by
  induction l with
  | nil => simp [dictSet, dictGet]
  | cons hd tl ih =>
    obtain ⟨k1, v1⟩ := hd
    by_cases h : k1 = k
    · subst h
      by_cases h2 : k1 = n <;> simp [dictSet, dictGet, h2]
    · by_cases h2 : k1 = n
      · subst h2
        have hkn : ¬ k = k1 := fun hEq => h hEq.symm
        simp [dictSet, dictGet, h, hkn]
      · simp [dictSet, dictGet, h, h2, ih]

/-- The last parameter spec in `params` whose name is `n` — the one whose
dict insertion survives in `build_params`. -/
def lastParamNamed (n : String) (params : List Param) : Option Param :=
  params.foldl (fun acc p => if p.name = n then some p else acc) none

theorem foldl_lastNamed_acc (n : String) (params : List Param) :
    ∀ acc : Option Param,
    params.foldl (fun acc p => if p.name = n then some p else acc) acc =
      match lastParamNamed n params with
      | some p => some p
      | none => acc := by
  induction params with
  | nil => intro acc; rfl
  | cons p rest ih =>
    intro acc
    have hcons : lastParamNamed n (p :: rest) =
        rest.foldl (fun acc q => if q.name = n then some q else acc)
          (if p.name = n then some p else none) := rfl
    rw [List.foldl_cons, hcons]
    by_cases h : p.name = n
    · rw [if_pos h, if_pos h, ih (some p)]
      cases lastParamNamed n rest
      · rfl
      · rfl
    · rw [if_neg h, if_neg h, ih acc, ih none]
      cases lastParamNamed n rest
      · rfl
      · rfl

theorem dictGet_foldl_dictSet (n : String) (params : List Param) :
    ∀ (init : List (String × Param)) (acc : Option Param),
    dictGet init n = (match acc with | some p => some p | none => none) →
    dictGet (params.foldl (fun ps param => dictSet ps param.name param) init) n =
      match params.foldl (fun a p => if p.name = n then some p else a) acc with
      | some p => some p
      | none => none := by
  induction params with
  | nil =>
    intro init acc h
    exact h
  | cons p rest ih =>
    intro init acc h
    simp only [List.foldl_cons]
    apply ih
    rw [dictGet_dictSet]
    by_cases hp : p.name = n
    · rw [if_pos hp, if_pos hp]
    · rw [if_neg hp, if_neg hp]
      exact h

theorem build_params_get (swagger_spec : Spec) (path_name : String)
    (op_spec : OpSpec) (path_item : PathItem) (ps : List (String × Param))
    (n : String)
    (hpath : dictGet swagger_spec.paths path_name = some path_item)
    (hbuild : build_params swagger_spec path_name op_spec = some ps) :
    dictGet ps n =
      match lastParamNamed n (op_spec.parameters ++ path_item.parameters) with
      | some p => some p
      | none => none := by
  unfold build_params at hbuild
  rw [hpath] at hbuild
  injection hbuild with hps
  subst hps
  exact dictGet_foldl_dictSet n _ [] none rfl

/-- C1 amended: when the parent path declares a parameter with the same
name as an operation-level one, the combined Param set keeps the
path-level declaration — path-level parameter specs are concatenated
after the operation-level ones and the last insertion for a name wins. -/
theorem build_params_path_level_wins (swagger_spec : Spec) (path_name : String)
    (op_spec : OpSpec) (path_item : PathItem) (ps : List (String × Param))
    (n : String) (p : Param)
    (hpath : dictGet swagger_spec.paths path_name = some path_item)
    (hbuild : build_params swagger_spec path_name op_spec = some ps)
    (hlast : lastParamNamed n path_item.parameters = some p) :
    dictGet ps n = some p := by
  rw [build_params_get swagger_spec path_name op_spec path_item ps n hpath hbuild]
  unfold lastParamNamed
  rw [List.foldl_append]
  rw [foldl_lastNamed_acc n path_item.parameters]
  rw [hlast]

/-- The operation-level declaration of `petId`: a non-required query
parameter. -/
def c1OpParam : Param :=
  { name := "petId", location := .query, required := false, default := none }

/-- The path-level declaration of `petId`: a required path parameter. -/
def c1PathParam : Param :=
  { name := "petId", location := .path, required := true, default := none }

def c1Spec : Spec :=
  { api_url := "http://localhost/api",
    paths := [("/pet/\x7bpetId\x7d", { parameters := [c1PathParam] })],
    definitions := [] }

def c1OpSpec : OpSpec :=
  { operationId := none, parameters := [c1OpParam], responses := [] }

/-- C1 counterexample: with `petId` declared at both levels, the combined
Param set built for the operation keeps the path-level declaration, not
the operation-level one — the two declarations differ in location and
required flag, and the surviving entry is the path-level Param. -/
theorem build_params_op_level_loses :
    build_params c1Spec "/pet/\x7bpetId\x7d" c1OpSpec =
      some [("petId", c1PathParam)] ∧
    c1OpParam.location = .query ∧
    c1PathParam.location = .path ∧
    ¬ c1PathParam = c1OpParam := by
  refine ⟨rfl, rfl, rfl, fun h => ?_⟩
  exact absurd (congrArg Param.location h) (by decide)

theorem build_params_path_level_wins_witness :
    dictGet [("petId", c1PathParam)] "petId" = some c1PathParam :=
  build_params_path_level_wins c1Spec "/pet/\x7bpetId\x7d" c1OpSpec
    { parameters := [c1PathParam] } [("petId", c1PathParam)] "petId"
    c1PathParam rfl rfl rfl

/-! ## Claim C9: invocation does not mutate the Operation's params -/

/-- C9: request construction consumes supplied names from a copy of the
operation's parameter table — after any invocation (successful or
failed), the Operation's declared Param set is exactly what
`build_params` produced; no call mutates it. -/
theorem call_preserves_params (swagger_spec : Spec) (path_name : String)
    (http_method : String) (op_spec : OpSpec) (op : Operation)
    (hbuilt : Operation.from_spec swagger_spec path_name http_method op_spec =
      some op) (kwargs : List (String × Json)) :
    (op.call kwargs).1.params = op.params ∧
    build_params swagger_spec path_name op_spec = some op.params := by
  constructor
  · unfold Operation.call
    cases h : op.construct_request kwargs
    · rfl
    · rfl
  · unfold Operation.from_spec at hbuilt
    cases hb : build_params swagger_spec path_name op_spec with
    | none =>
      rw [hb] at hbuilt
      cases hbuilt
    | some ps =>
      rw [hb] at hbuilt
      injection hbuilt with hop
      rw [← hop]

theorem call_preserves_params_witness :
    ((Operation.from_spec c1Spec "/pet/\x7bpetId\x7d" "get" c1OpSpec).getD
        deletePetOp).call [("petId", .jstr "7")]
      |>.1.params = [("petId", c1PathParam)] := by
  have hbuilt : Operation.from_spec c1Spec "/pet/\x7bpetId\x7d" "get" c1OpSpec =
      some ((Operation.from_spec c1Spec "/pet/\x7bpetId\x7d" "get"
        c1OpSpec).getD deletePetOp) := rfl
  have h := call_preserves_params c1Spec "/pet/\x7bpetId\x7d" "get" c1OpSpec
    ((Operation.from_spec c1Spec "/pet/\x7bpetId\x7d" "get" c1OpSpec).getD
      deletePetOp) hbuilt [("petId", .jstr "7")]
  rw [h.1]
  rfl

/-! ## Claim C10: the reserved _request_options argument -/

theorem construct_params_invalid_mem (op : Operation) (request : Request)
    (kwargs : List (String × Json)) (oid n : String)
    (h : op.construct_params request kwargs = .error (.invalidArgument oid n)) :
    n ∈ kwargs.map Prod.fst := by
  unfold Operation.construct_params at h
  cases hc : consume_kwargs op.operation_id op.params request kwargs with
  | error e =>
    rw [hc] at h
    injection h with he
    subst he
    exact consume_kwargs_invalid_mem op.operation_id kwargs op.params request oid n hc
  | ok pr =>
    rw [hc] at h
    obtain ⟨cur2, request2⟩ := pr
    exact absurd h (apply_remaining_not_invalid cur2 request2 oid n)

theorem dictPopD_fst {α : Type} (l : List (String × α)) (k : String) (dflt : α) :
    (dictPopD l k dflt).1 = (dictGet l k).getD dflt := by
  unfold dictPopD dictPop
  cases h : dictGet l k
  · rfl
  · rfl

theorem dictPopD_snd {α : Type} (l : List (String × α)) (k : String) (dflt : α) :
    (dictPopD l k dflt).2 = eraseKey l k := by
  unfold dictPopD dictPop
  cases h : dictGet l k
  · rw [eraseKey_of_not_mem l k ((dictGet_none_iff l k).mp h)]
  · rfl

/-- C10: the reserved keyword argument `_request_options` is removed from
the caller's arguments before parameter validation, so supplying it never
raises the unknown-parameter error; its `headers` entry (the empty
mapping when absent) becomes the request's headers, and every fresh
request starts with the operation's HTTP method, url equal to the spec's
`api_url` concatenated with the path name, and an empty params
container. -/
theorem construct_request_options (op : Operation)
    (kwargs : List (String × Json))
    (hnodup : (kwargs.map Prod.fst).Nodup) :
    (∀ oid, ¬ op.construct_request kwargs =
      .error (.invalidArgument oid "_request_options")) ∧
    op.construct_request kwargs =
      op.construct_params
        { method := op.http_method,
          url := op.swagger_spec.api_url ++ op.path_name,
          params := [],
          headers :=
            (match dictGet kwargs "_request_options" with
             | some ro => (jsonGet ro "headers").getD (.jobj [])
             | none => .jobj []),
          body := none }
        (eraseKey kwargs "_request_options") := by
  have hreq : op.construct_request kwargs =
      op.construct_params
        { method := op.http_method,
          url := op.swagger_spec.api_url ++ op.path_name,
          params := [],
          headers :=
            (match dictGet kwargs "_request_options" with
             | some ro => (jsonGet ro "headers").getD (.jobj [])
             | none => .jobj []),
          body := none }
        (eraseKey kwargs "_request_options") := by
    unfold Operation.construct_request
    show op.construct_params
        { method := op.http_method,
          url := op.swagger_spec.api_url ++ op.path_name,
          params := [],
          headers := (jsonGet (dictPopD kwargs "_request_options"
            (Json.jobj [])).1 "headers").getD (Json.jobj []),
          body := none }
        (dictPopD kwargs "_request_options" (Json.jobj [])).2 = _
    rw [dictPopD_snd, dictPopD_fst]
    cases h : dictGet kwargs "_request_options"
    · rfl
    · rfl
  refine ⟨?_, hreq⟩
  intro oid h
  rw [hreq] at h
  have hmem := construct_params_invalid_mem op _ _ oid "_request_options" h
  have hnot := not_mem_keys_eraseKey kwargs "_request_options" hnodup
  exact hnot hmem

/-- An invocation passing `_request_options` with a custom header
alongside an ordinary argument. -/
def c10Kwargs : List (String × Json) :=
  [("_request_options", .jobj [("headers", .jobj [("X-Trace", .jstr "1")])]),
   ("petId", .jstr "7")]

theorem construct_request_options_witness :
    (∀ oid, ¬ deletePetOp.construct_request c10Kwargs =
      .error (.invalidArgument oid "_request_options")) ∧
    deletePetOp.construct_request c10Kwargs =
      deletePetOp.construct_params
        { method := "delete",
          url := "http://localhost/api/pet",
          params := [],
          headers := .jobj [("X-Trace", .jstr "1")],
          body := none }
        [("petId", .jstr "7")] := by
  have h := construct_request_options deletePetOp c10Kwargs (by decide)
  exact ⟨h.1, h.2⟩

/-! ## Claims C6 and C7: argument validation errors -/

/-- C6: calling an operation with a supplied argument whose name is not
among the operation's declared parameters raises a fatal error (the
`TypeError` the spec calls `InvalidArgumentError`) naming the
unrecognized parameter and the operation identifier; calls where every
supplied name matches a declared parameter raise no such error. -/
theorem construct_params_unknown_argument (op : Operation) (request : Request)
    (kwargs : List (String × Json))
    (hnodup : (kwargs.map Prod.fst).Nodup) :
    ((∃ m ∈ kwargs.map Prod.fst, m ∉ op.params.map Prod.fst) →
      ∃ n, n ∈ kwargs.map Prod.fst ∧ n ∉ op.params.map Prod.fst ∧
        op.construct_params request kwargs =
          .error (.invalidArgument op.operation_id n) ∧
        OpCallError.message (.invalidArgument op.operation_id n) =
          op.operation_id ++ " does not have parameter " ++ n) ∧
    ((∀ m ∈ kwargs.map Prod.fst, m ∈ op.params.map Prod.fst) →
      ∀ oid n, ¬ op.construct_params request kwargs =
        .error (.invalidArgument oid n)) := by
  constructor
  · intro hex
    obtain ⟨n, hn1, hn2, hn3⟩ :=
      consume_kwargs_unknown op.operation_id kwargs op.params request hnodup hex
    refine ⟨n, hn1, hn2, ?_, rfl⟩
    unfold Operation.construct_params
    rw [hn3]
  · intro hall oid n h
    obtain ⟨request2, hok⟩ :=
      consume_kwargs_all_known op.operation_id kwargs op.params request hnodup hall
    unfold Operation.construct_params at h
    rw [hok] at h
    exact apply_remaining_not_invalid _ _ oid n h

/-- An operation with a single required `petId` parameter and an explicit
operation identifier. -/
def petByIdOp : Operation :=
  { swagger_spec := c1Spec,
    path_name := "/pet/\x7bpetId\x7d",
    http_method := "get",
    op_spec :=
      { operationId := some "getPetById",
        parameters := [c1PathParam],
        responses := [] },
    params := [("petId", c1PathParam)] }

/-- The fresh request `construct_request` builds for `petByIdOp` with no
`_request_options` supplied. -/
def baseReq : Request :=
  { method := "get",
    url := "http://localhost/api/pet/\x7bpetId\x7d",
    params := [],
    headers := .jobj [],
    body := none }

theorem construct_params_unknown_argument_witness :
    ∃ n, n ∈ ([("bogus", Json.jstr "x")].map Prod.fst) ∧
      n ∉ (petByIdOp.params.map Prod.fst) ∧
      petByIdOp.construct_params baseReq [("bogus", Json.jstr "x")] =
        .error (.invalidArgument petByIdOp.operation_id n) ∧
      OpCallError.message (.invalidArgument petByIdOp.operation_id n) =
        petByIdOp.operation_id ++ " does not have parameter " ++ n :=
  (construct_params_unknown_argument petByIdOp baseReq
      [("bogus", Json.jstr "x")] (by decide)).1
    ⟨"bogus", by decide, by decide⟩

/-- Whether `sub` occurs as a contiguous run inside `l`. -/
def subOccurs (sub : List Char) : List Char → Bool
  | [] => sub.isEmpty
  | c :: rest => sub.isPrefixOf (c :: rest) || subOccurs sub rest

/-- C7 counterexample: with `petId` required and not supplied, the raised
error is the `TypeError` whose message is
`"petId is a required parameter"` — it carries the parameter name but the
operation identifier `getPetById` appears nowhere in it, so the error
does not carry the offending operation identifier. -/
theorem construct_params_missing_no_operation_id :
    petByIdOp.construct_params baseReq [] =
      .error (.missingArgument "petId") ∧
    OpCallError.message (.missingArgument "petId") =
      "petId is a required parameter" ∧
    petByIdOp.operation_id = "getPetById" ∧
    subOccurs "getPetById".toList "petId is a required parameter".toList =
      false := by
  refine ⟨rfl, rfl, rfl, by decide⟩

/-- C7 amended: after all supplied argument names are consumed, if any
remaining declared parameter is required, the call raises a fatal
MissingArgumentError, and the error carries the offending parameter name
(the operation identifier is not part of the error). -/
theorem construct_params_missing_required (op : Operation) (request : Request)
    (kwargs : List (String × Json))
    (hnodupP : (op.params.map Prod.fst).Nodup)
    (hnodupK : (kwargs.map Prod.fst).Nodup)
    (hknown : ∀ m ∈ kwargs.map Prod.fst, m ∈ op.params.map Prod.fst)
    (hmissing : ∃ pr ∈ op.params, pr.2.required = true ∧
      pr.1 ∉ kwargs.map Prod.fst) :
    ∃ pr, pr ∈ op.params ∧ pr.2.required = true ∧
      pr.1 ∉ kwargs.map Prod.fst ∧
      op.construct_params request kwargs =
        .error (.missingArgument pr.2.name) ∧
      OpCallError.message (.missingArgument pr.2.name) =
        pr.2.name ++ " is a required parameter" := by
  obtain ⟨request2, hok⟩ :=
    consume_kwargs_all_known op.operation_id kwargs op.params request
      hnodupK hknown
  obtain ⟨pr0, hm0, hr0, hn0⟩ := hmissing
  have hmem : pr0 ∈ removeKeys op.params (kwargs.map Prod.fst) :=
    mem_removeKeys (kwargs.map Prod.fst) op.params pr0 hm0 hn0
  obtain ⟨pr, hpr1, hpr2, hpr3⟩ :=
    apply_remaining_missing (removeKeys op.params (kwargs.map Prod.fst))
      request2 ⟨pr0, hmem, hr0⟩
  refine ⟨pr, removeKeys_sub (kwargs.map Prod.fst) op.params pr hpr1, hpr2,
    mem_removeKeys_not_supplied (kwargs.map Prod.fst) op.params pr hnodupP hpr1,
    ?_, rfl⟩
  unfold Operation.construct_params
  rw [hok]
  exact hpr3

theorem construct_params_missing_required_witness :
    ∃ pr, pr ∈ petByIdOp.params ∧ pr.2.required = true ∧
      pr.1 ∉ (([] : List (String × Json)).map Prod.fst) ∧
      petByIdOp.construct_params baseReq [] =
        .error (.missingArgument pr.2.name) ∧
      OpCallError.message (.missingArgument pr.2.name) =
        pr.2.name ++ " is a required parameter" :=
  construct_params_missing_required petByIdOp baseReq [] (by decide)
    (by decide) (by intro m hm; cases hm)
    ⟨("petId", c1PathParam), List.mem_cons_self _ _, by decide, by decide⟩

/-! ## Claim C4: validation failures never reach the transport -/

theorem construct_request_as_params (op : Operation)
    (kwargs : List (String × Json))
    (hro : "_request_options" ∉ kwargs.map Prod.fst) :
    op.construct_request kwargs =
      op.construct_params
        { method := op.http_method,
          url := op.swagger_spec.api_url ++ op.path_name,
          params := [],
          headers := .jobj [],
          body := none } kwargs := by
  unfold Operation.construct_request
  show op.construct_params
      { method := op.http_method,
        url := op.swagger_spec.api_url ++ op.path_name,
        params := [],
        headers := (jsonGet (dictPopD kwargs "_request_options"
          (Json.jobj [])).1 "headers").getD (Json.jobj []),
        body := none }
      (dictPopD kwargs "_request_options" (Json.jobj [])).2 = _
  rw [dictPopD_snd, dictPopD_fst,
    (dictGet_none_iff kwargs "_request_options").mpr hro,
    eraseKey_of_not_mem kwargs "_request_options" hro]
  rfl

/-- C4: for every call whose arguments fail validation (an unknown
parameter name or an omitted required parameter), the error is raised
synchronously while the request is constructed, before the transport is
handed the request — the call returns an error and no `HTTPFuture` is
ever created, so a failed call never reaches the transport. -/
theorem call_validation_fails_before_transport (op : Operation)
    (kwargs : List (String × Json))
    (hro : "_request_options" ∉ kwargs.map Prod.fst)
    (hnodup : (kwargs.map Prod.fst).Nodup)
    (hfail : (∃ m ∈ kwargs.map Prod.fst, m ∉ op.params.map Prod.fst) ∨
      (∃ pr ∈ op.params, pr.2.required = true ∧
        pr.1 ∉ kwargs.map Prod.fst)) :
    ∃ e, op.call kwargs = (op, .error e) := by
  have hparams : ∀ request : Request, ∃ e,
      op.construct_params request kwargs = .error e := by
    intro request
    rcases hfail with hunk | hmiss
    · obtain ⟨n, _, _, h3⟩ :=
        consume_kwargs_unknown op.operation_id kwargs op.params request
          hnodup hunk
      exact ⟨_, by unfold Operation.construct_params; rw [h3]⟩
    · by_cases hall : ∀ m ∈ kwargs.map Prod.fst, m ∈ op.params.map Prod.fst
      · obtain ⟨request2, hok⟩ :=
          consume_kwargs_all_known op.operation_id kwargs op.params request
            hnodup hall
        obtain ⟨pr0, hm0, hr0, hn0⟩ := hmiss
        obtain ⟨pr, _, _, hres⟩ :=
          apply_remaining_missing (removeKeys op.params (kwargs.map Prod.fst))
            request2
            ⟨pr0, mem_removeKeys (kwargs.map Prod.fst) op.params pr0 hm0 hn0,
              hr0⟩
        exact ⟨_, by unfold Operation.construct_params; rw [hok]; exact hres⟩
      · push_neg at hall
        obtain ⟨m, hm1, hm2⟩ := hall
        obtain ⟨n, _, _, h3⟩ :=
          consume_kwargs_unknown op.operation_id kwargs op.params request
            hnodup ⟨m, hm1, hm2⟩
        exact ⟨_, by unfold Operation.construct_params; rw [h3]⟩
  obtain ⟨e, he⟩ := hparams
    { method := op.http_method,
      url := op.swagger_spec.api_url ++ op.path_name,
      params := [],
      headers := .jobj [],
      body := none }
  refine ⟨e, ?_⟩
  unfold Operation.call
  rw [construct_request_as_params op kwargs hro, he]

theorem call_validation_fails_before_transport_witness :
    ∃ e, petByIdOp.call [] = (petByIdOp, .error e) :=
  call_validation_fails_before_transport petByIdOp []
    (by decide) (by decide)
    (Or.inr ⟨("petId", c1PathParam),
      List.mem_cons_self _ _, by decide, by decide⟩)


/-! ## Claim C8: omitted optional parameters with defaults -/

/-- The default value `v` of Param `p` is present in request `r` at the
Param's wire location: a named entry of the params container for
`query`/`formData`, a named header entry for `header`, the payload for
`body`.  A `path` default has no stable location to test (it is spliced
into the url text), so the predicate does not hold for it. -/
def default_in_request (p : Param) (v : Json) (r : Request) : Prop :=
  match p.location with
  | .query => dictGet r.params p.name = some v
  | .formData => dictGet r.params p.name = some v
  | .header => jsonGet r.headers p.name = some v
  | .body => r.body = some v
  | .path => False

theorem marshal_value_default (p : Param) (dv : Json)
    (hdef : p.default = some dv) : marshal_value p none = dv := by
  unfold marshal_value
  rw [hdef]
  rfl

theorem marshal_param_eq_path (p : Param) (x : Option Json) (r : Request)
    (h : p.location = .path) :
    marshal_param p x r =
      { r with url := (r.url.replace ("\x7b" ++ p.name ++ "\x7d")
          (percentEncode (jsonRender (marshal_value p x)))) } := by
  unfold marshal_param
  rw [h]

theorem marshal_param_eq_query (p : Param) (x : Option Json) (r : Request)
    (h : p.location = .query) :
    marshal_param p x r =
      { r with params := dictSet r.params p.name (marshal_value p x) } := by
  unfold marshal_param
  rw [h]

theorem marshal_param_eq_formData (p : Param) (x : Option Json) (r : Request)
    (h : p.location = .formData) :
    marshal_param p x r =
      { r with params := dictSet r.params p.name (marshal_value p x) } := by
  unfold marshal_param
  rw [h]

theorem marshal_param_eq_header (p : Param) (x : Option Json) (r : Request)
    (h : p.location = .header) :
    marshal_param p x r =
      { r with headers := jsonSet r.headers p.name (marshal_value p x) } := by
  unfold marshal_param
  rw [h]

theorem marshal_param_eq_body (p : Param) (x : Option Json) (r : Request)
    (h : p.location = .body) :
    marshal_param p x r = { r with body := some (marshal_value p x) } := by
  unfold marshal_param
  rw [h]

theorem default_in_request_eq_query (p : Param) (v : Json) (r : Request)
    (h : p.location = .query) :
    default_in_request p v r = (dictGet r.params p.name = some v) := by
  unfold default_in_request
  rw [h]

theorem default_in_request_eq_formData (p : Param) (v : Json) (r : Request)
    (h : p.location = .formData) :
    default_in_request p v r = (dictGet r.params p.name = some v) := by
  unfold default_in_request
  rw [h]

theorem default_in_request_eq_header (p : Param) (v : Json) (r : Request)
    (h : p.location = .header) :
    default_in_request p v r = (jsonGet r.headers p.name = some v) := by
  unfold default_in_request
  rw [h]

theorem default_in_request_eq_body (p : Param) (v : Json) (r : Request)
    (h : p.location = .body) :
    default_in_request p v r = (r.body = some v) := by
  unfold default_in_request
  rw [h]

theorem default_in_request_eq_path (p : Param) (v : Json) (r : Request)
    (h : p.location = .path) :
    default_in_request p v r = False := by
  unfold default_in_request
  rw [h]

theorem jsonSet_isObj (h : Json) (k : String) (v : Json) :
    (jsonSet h k v).isObj = h.isObj := by
  cases h <;> rfl

theorem marshal_param_isObj (q : Param) (x : Option Json) (r : Request) :
    (marshal_param q x r).headers.isObj = r.headers.isObj := by
  cases hq : q.location
  · rw [marshal_param_eq_path q x r hq]
  · rw [marshal_param_eq_query q x r hq]
  · rw [marshal_param_eq_header q x r hq]
    exact jsonSet_isObj r.headers q.name _
  · rw [marshal_param_eq_formData q x r hq]
  · rw [marshal_param_eq_body q x r hq]

theorem marshal_param_default (p : Param) (dv : Json) (r : Request)
    (hdef : p.default = some dv)
    (hpath : ¬ p.location = .path)
    (hobj : p.location = .header → r.headers.isObj = true) :
    default_in_request p dv (marshal_param p none r) := by
  cases hloc : p.location
  · exact absurd hloc hpath
  · rw [marshal_param_eq_query p none r hloc,
      default_in_request_eq_query p dv _ hloc]
    show dictGet (dictSet r.params p.name (marshal_value p none)) p.name =
      some dv
    rw [dictGet_dictSet, if_pos rfl, marshal_value_default p dv hdef]
  · rw [marshal_param_eq_header p none r hloc,
      default_in_request_eq_header p dv _ hloc]
    show jsonGet (jsonSet r.headers p.name (marshal_value p none)) p.name =
      some dv
    have hh := hobj hloc
    cases hhead : r.headers <;> rw [hhead] at hh <;> try cases hh
    show dictGet (dictSet _ p.name (marshal_value p none)) p.name = some dv
    rw [dictGet_dictSet, if_pos rfl, marshal_value_default p dv hdef]
  · rw [marshal_param_eq_formData p none r hloc,
      default_in_request_eq_formData p dv _ hloc]
    show dictGet (dictSet r.params p.name (marshal_value p none)) p.name =
      some dv
    rw [dictGet_dictSet, if_pos rfl, marshal_value_default p dv hdef]
  · rw [marshal_param_eq_body p none r hloc,
      default_in_request_eq_body p dv _ hloc]
    show some (marshal_value p none) = some dv
    rw [marshal_value_default p dv hdef]

theorem default_in_request_preserved (p : Param) (dv : Json) (r : Request)
    (q : Param) (x : Option Json)
    (h : default_in_request p dv r)
    (hname : ¬ q.name = p.name)
    (hbody : q.location = .body → ¬ p.location = .body) :
    default_in_request p dv (marshal_param q x r) := by
  cases hploc : p.location
  · rw [default_in_request_eq_path p dv r hploc] at h
    exact h.elim
  · rw [default_in_request_eq_query p dv r hploc] at h
    rw [default_in_request_eq_query p dv _ hploc]
    cases hqloc : q.location
    · rw [marshal_param_eq_path q x r hqloc]
      exact h
    · rw [marshal_param_eq_query q x r hqloc]
      show dictGet (dictSet r.params q.name (marshal_value q x)) p.name =
        some dv
      rw [dictGet_dictSet, if_neg hname]
      exact h
    · rw [marshal_param_eq_header q x r hqloc]
      exact h
    · rw [marshal_param_eq_formData q x r hqloc]
      show dictGet (dictSet r.params q.name (marshal_value q x)) p.name =
        some dv
      rw [dictGet_dictSet, if_neg hname]
      exact h
    · rw [marshal_param_eq_body q x r hqloc]
      exact h
  · rw [default_in_request_eq_header p dv r hploc] at h
    rw [default_in_request_eq_header p dv _ hploc]
    cases hqloc : q.location
    · rw [marshal_param_eq_path q x r hqloc]
      exact h
    · rw [marshal_param_eq_query q x r hqloc]
      exact h
    · rw [marshal_param_eq_header q x r hqloc]
      cases hhead : r.headers <;> rw [hhead] at h <;> try cases h
      show dictGet (dictSet _ q.name (marshal_value q x)) p.name = some dv
      rw [dictGet_dictSet, if_neg hname]
      exact h
    · rw [marshal_param_eq_formData q x r hqloc]
      exact h
    · rw [marshal_param_eq_body q x r hqloc]
      exact h
  · rw [default_in_request_eq_formData p dv r hploc] at h
    rw [default_in_request_eq_formData p dv _ hploc]
    cases hqloc : q.location
    · rw [marshal_param_eq_path q x r hqloc]
      exact h
    · rw [marshal_param_eq_query q x r hqloc]
      show dictGet (dictSet r.params q.name (marshal_value q x)) p.name =
        some dv
      rw [dictGet_dictSet, if_neg hname]
      exact h
    · rw [marshal_param_eq_header q x r hqloc]
      exact h
    · rw [marshal_param_eq_formData q x r hqloc]
      show dictGet (dictSet r.params q.name (marshal_value q x)) p.name =
        some dv
      rw [dictGet_dictSet, if_neg hname]
      exact h
    · rw [marshal_param_eq_body q x r hqloc]
      exact h
  · rw [default_in_request_eq_body p dv r hploc] at h
    rw [default_in_request_eq_body p dv _ hploc]
    cases hqloc : q.location
    · rw [marshal_param_eq_path q x r hqloc]
      exact h
    · rw [marshal_param_eq_query q x r hqloc]
      exact h
    · rw [marshal_param_eq_header q x r hqloc]
      exact h
    · rw [marshal_param_eq_formData q x r hqloc]
      exact h
    · exact absurd hploc (hbody hqloc)

theorem apply_remaining_preserves (l : List (String × Param)) :
    ∀ (request r2 : Request) (p : Param) (dv : Json),
    default_in_request p dv request →
    (∀ e ∈ l, ¬ e.2.name = p.name) →
    (∀ e ∈ l, e.2.location = .body → ¬ p.location = .body) →
    apply_remaining l request = .ok r2 →
    default_in_request p dv r2 := by
  induction l with
  | nil =>
    intro request r2 p dv h _ _ hok
    injection hok with h2
    rw [← h2]
    exact h
  | cons hd rest ih =>
    obtain ⟨k0, p0⟩ := hd
    intro request r2 p dv h hname hbody hok
    simp only [apply_remaining] at hok
    by_cases hr : p0.required
    · rw [if_pos hr] at hok
      cases hok
    · rw [if_neg hr] at hok
      by_cases hd0 : p0.has_default
      · rw [if_pos hd0] at hok
        exact ih (marshal_param p0 none request) r2 p dv
          (default_in_request_preserved p dv request p0 none h
            (hname (k0, p0) (List.mem_cons_self _ _))
            (fun hq => hbody (k0, p0) (List.mem_cons_self _ _) hq))
          (fun e he => hname e (List.mem_cons_of_mem _ he))
          (fun e he => hbody e (List.mem_cons_of_mem _ he)) hok
      · rw [if_neg hd0] at hok
        exact ih request r2 p dv h
          (fun e he => hname e (List.mem_cons_of_mem _ he))
          (fun e he => hbody e (List.mem_cons_of_mem _ he)) hok

theorem consume_preserves_isObj (operationId : String)
    (ks : List (String × Json)) :
    ∀ (cur cur2 : List (String × Param)) (request r2 : Request),
    consume_kwargs operationId cur request ks = .ok (cur2, r2) →
    r2.headers.isObj = request.headers.isObj := by
  induction ks with
  | nil =>
    intro cur cur2 request r2 hok
    injection hok with h2
    rw [show r2 = request from congrArg Prod.snd h2.symm]
  | cons hd rest ih =>
    obtain ⟨n0, v0⟩ := hd
    intro cur cur2 request r2 hok
    simp only [consume_kwargs] at hok
    cases hp : dictPop cur n0 with
    | none =>
      rw [hp] at hok
      cases hok
    | some pr =>
      rw [hp] at hok
      obtain ⟨param, remaining⟩ := pr
      rw [ih _ _ _ _ hok, marshal_param_isObj]

theorem apply_remaining_default (l : List (String × Param)) :
    ∀ (request r2 : Request) (n : String) (p : Param) (dv : Json),
    (∀ e ∈ l, e.1 = e.2.name) →
    (l.map Prod.fst).Nodup →
    (n, p) ∈ l →
    p.required = false →
    p.default = some dv →
    ¬ p.location = .path →
    (p.location = .body → ∀ e ∈ l, e.2.location = .body → e.1 = n) →
    request.headers.isObj = true →
    apply_remaining l request = .ok r2 →
    default_in_request p dv r2 := by
  induction l with
  | nil =>
    intro request r2 n p dv _ _ hmem
    cases hmem
  | cons hd rest ih =>
    obtain ⟨k0, p0⟩ := hd
    intro request r2 n p dv hnames hnodup hmem hreq hdef hpath hbody hobj hok
    simp only [List.map_cons, List.nodup_cons] at hnodup
    simp only [apply_remaining] at hok
    by_cases hr : p0.required
    · rw [if_pos hr] at hok
      cases hok
    · rw [if_neg hr] at hok
      rcases List.mem_cons.mp hmem with hhd | htl
      · have hk0 : k0 = n := (congrArg Prod.fst hhd).symm
        have hp0 : p0 = p := (congrArg Prod.snd hhd).symm
        subst hp0
        have hd0 : p0.has_default := by
          unfold Param.has_default
          rw [hdef]
          rfl
        rw [if_pos hd0] at hok
        have hpname : k0 = p0.name :=
          hnames (k0, p0) (List.mem_cons_self _ _)
        have hstart : default_in_request p0 dv (marshal_param p0 none request) :=
          marshal_param_default p0 dv request hdef hpath (fun _ => hobj)
        apply apply_remaining_preserves rest (marshal_param p0 none request)
          r2 p0 dv hstart ?_ ?_ hok
        · intro e he heq
          apply hnodup.1
          have hename := hnames e (List.mem_cons_of_mem _ he)
          rw [show k0 = e.1 from by rw [hename, heq, ← hpname]]
          exact List.mem_map_of_mem Prod.fst he
        · intro e he hq hploc
          apply hnodup.1
          have := hbody hploc e (List.mem_cons_of_mem _ he) hq
          rw [show k0 = e.1 from by rw [this, hk0]]
          exact List.mem_map_of_mem Prod.fst he
      · have hnext : ∀ request3 : Request, request3.headers.isObj = true →
            apply_remaining rest request3 = .ok r2 →
            default_in_request p dv r2 := by
          intro request3 hobj3 hok3
          exact ih request3 r2 n p dv
            (fun e he => hnames e (List.mem_cons_of_mem _ he))
            hnodup.2 htl hreq hdef hpath
            (fun hploc e he hq =>
              hbody hploc e (List.mem_cons_of_mem _ he) hq)
            hobj3 hok3
        by_cases hd0 : p0.has_default
        · rw [if_pos hd0] at hok
          exact hnext (marshal_param p0 none request)
            (by rw [marshal_param_isObj]; exact hobj) hok
        · rw [if_neg hd0] at hok
          exact hnext request hobj hok

/-- C8: every declared parameter that is not required, carries a default
value, and was not supplied by the caller is encoded into the request
using that default value — the finished request holds the default at the
parameter's declared wire location.  Side conditions: the params dict is
keyed by parameter name with distinct keys (as `build_params` builds it),
the request's headers container is a JSON object, a `path`-located
default is outside the statement (Swagger path parameters are required),
and a `body`-located default assumes the operation declares no second
body parameter. -/
theorem construct_params_defaults (op : Operation) (request : Request)
    (kwargs : List (String × Json)) (r2 : Request) (n : String) (p : Param)
    (dv : Json)
    (hnames : ∀ e ∈ op.params, e.1 = e.2.name)
    (hnodupP : (op.params.map Prod.fst).Nodup)
    (hobj : request.headers.isObj = true)
    (hok : op.construct_params request kwargs = .ok r2)
    (hmem : (n, p) ∈ op.params)
    (hreq : p.required = false)
    (hdef : p.default = some dv)
    (hsupplied : n ∉ kwargs.map Prod.fst)
    (hpath : ¬ p.location = .path)
    (hbody : p.location = .body → ∀ e ∈ op.params, e.2.location = .body →
      e.1 = n) :
    default_in_request p dv r2 := by
  unfold Operation.construct_params at hok
  cases hc : consume_kwargs op.operation_id op.params request kwargs with
  | error e =>
    rw [hc] at hok
    cases hok
  | ok pr =>
    rw [hc] at hok
    obtain ⟨cur2, r1⟩ := pr
    have hcur : cur2 = removeKeys op.params (kwargs.map Prod.fst) :=
      consume_kwargs_ok_params op.operation_id kwargs op.params cur2 request
        r1 hc
    subst hcur
    have hobj1 : r1.headers.isObj = true := by
      rw [consume_preserves_isObj op.operation_id kwargs op.params _ request
        r1 hc]
      exact hobj
    exact apply_remaining_default
      (removeKeys op.params (kwargs.map Prod.fst)) r1 r2 n p dv
      (fun e he => hnames e
        (removeKeys_sub (kwargs.map Prod.fst) op.params e he))
      (removeKeys_keys_nodup (kwargs.map Prod.fst) op.params hnodupP)
      (mem_removeKeys (kwargs.map Prod.fst) op.params (n, p) hmem hsupplied)
      hreq hdef hpath
      (fun hploc e he hq =>
        hbody hploc e (removeKeys_sub (kwargs.map Prod.fst) op.params e he) hq)
      hobj1 hok

/-- An optional query parameter with a declared default. -/
def statusParam : Param :=
  { name := "status", location := .query, required := false,
    default := some (.jstr "available") }

/-- An operation declaring only the optional defaulted `status`
parameter. -/
def findPetsOp : Operation :=
  { swagger_spec := c1Spec,
    path_name := "/pet",
    http_method := "get",
    op_spec :=
      { operationId := some "findPets",
        parameters := [statusParam],
        responses := [] },
    params := [("status", statusParam)] }

theorem construct_params_defaults_witness :
    default_in_request statusParam (.jstr "available")
      { method := "get",
        url := "http://localhost/api/pet",
        params := [("status", Json.jstr "available")],
        headers := .jobj [],
        body := none } :=
  construct_params_defaults findPetsOp
    { method := "get",
      url := "http://localhost/api/pet",
      params := [],
      headers := .jobj [],
      body := none }
    [] _ "status" statusParam (.jstr "available")
    (fun e he => by
      rcases List.mem_cons.mp he with rfl | h2
      · rfl
      · cases h2)
    (by decide) rfl rfl (List.mem_cons_self _ _) rfl rfl
    (fun h => by cases h) (by decide)
    (fun h => by cases h)
